import Mathlib

/-
  Verification of the AES-GCM session layer (cipher-aes-gcm.cpp).

  The session orchestrates counter derivation, keystream generation,
  GHASH folding and tag masking on top of two external collaborators:
  - the block cipher (AES), modelled as an abstract function
    `aesE : List Nat → List Nat` (the scheduled cipher for a fixed key;
    it always returns a 16-entry list of bytes, stated as a hypothesis
    where needed, mirroring the C++ type `std::array<uint8_t,16>`);
  - the GHASH accumulator, whose state is the pair (authdata seed, folded
    body bytes) and whose `digest()` is an abstract function
    `gdig : List Nat → List Nat → List Nat` of that state (the hash key is
    fixed inside `gdig`, exactly as the key schedule is fixed inside `aesE`).

  Byte strings are `List Nat`; the `char`/`uint8_t` conversions of the C++
  are rendered as `% 256` at the places where a copy into a `uint8_t`
  array happens, and `uint8_t` arithmetic wraps with `% 256`.
-/

namespace GCM

/-- Session states of the C++ enum: INIT, ENCRYPT, DECRYPT, FINAL. -/
inductive GCMState where
  | INIT
  | ENCRYPT
  | DECRYPT
  | FINAL
deriving DecidableEq, Repr

/-- State of the external GHASH accumulator as the GCM layer drives it:
`set_authdata a` resets it to `⟨a, []⟩`, `add bs` appends to `body`,
`digest` is the abstract `gdig aad body`. -/
structure GHASH where
  aad : List Nat
  body : List Nat
deriving DecidableEq, Repr

/-- The fields of the C++ `AES_GCM` class (the `aes` member is the abstract
function `aesE`, the `ghash` member keeps only the driven state). -/
structure AES_GCM where
  authdata : List Nat
  nonce : List Nat
  expected_tag : List Nat
  tag : List Nat
  state : GCMState
  pos : Nat
  counter : List Nat
  key_stream0 : List Nat
  key_stream : List Nat
  ghash : GHASH
deriving DecidableEq, Repr

/-- The constant-time increment loop of `increment_counter`, viewed from the
least-significant end: the C++ loop runs `i = 15 .. 0` with `carry` starting
at 1, `counter[i] += carry` wrapping as `uint8_t`, and
`carry = counter[i] < carry ? 1 : 0` on the new value. -/
def incBytesLE : List Nat → Nat → List Nat
  | [], _ => []
  | b :: bs, carry =>
    let b1 := (b + carry) % 256
    b1 :: incBytesLE bs (if b1 < carry then 1 else 0)

/-- Big-endian byte-array increment: the C++ loop walks the 16-byte counter
from index 15 down to 0, which is `incBytesLE` on the reversed list. -/
def incBytes (c : List Nat) : List Nat :=
  (incBytesLE c.reverse 1).reverse

/-- `std::copy (src.cbegin(), src.cend(), dst.begin())` of a `char` string
into a `uint8_t` array: the first `src.length` entries are overwritten by
`src` (converted to bytes), the rest of `dst` is kept. -/
def copyInto (dst src : List Nat) : List Nat :=
  (src.map (· % 256)).take dst.length ++ dst.drop src.length

namespace AES_GCM

/-- `AES_GCM::clear`: clears `authdata`, `nonce`, `expected_tag`, sets
`state = INIT` and `pos = 0`.  The `tag`, `counter`, keystream blocks and
the ghash accumulator are not touched. -/
def clear (g : AES_GCM) : AES_GCM :=
  { g with authdata := [], nonce := [], expected_tag := [],
           state := .INIT, pos := 0 }

/-- `AES_GCM::add_authdata`. -/
def add_authdata (g : AES_GCM) (a : List Nat) : AES_GCM :=
  { g with authdata := a }

/-- `AES_GCM::set_nonce`. -/
def set_nonce (g : AES_GCM) (a : List Nat) : AES_GCM :=
  { g with nonce := a }

/-- `AES_GCM::set_authtag`. -/
def set_authtag (g : AES_GCM) (a : List Nat) : AES_GCM :=
  { g with expected_tag := a }

/-- `AES_GCM::increment_counter`: increments the 16-byte counter and
refreshes `key_stream = aes.encrypt(counter)`. -/
def increment_counter (aesE : List Nat → List Nat) (g : AES_GCM) : AES_GCM :=
  let c := incBytes g.counter
  { g with counter := c, key_stream := aesE c }

/-- `AES_GCM::reset_counter`: derives J0 into `counter` (12-byte nonce:
copy nonce, set tail bytes to 0,0,0,1; otherwise: `ghash.set_authdata("")`,
`ghash.add(nonce)` and copy the digest), computes
`key_stream0 = aes.encrypt(counter)` and then increments the counter. -/
def reset_counter (aesE : List Nat → List Nat)
    (gdig : List Nat → List Nat → List Nat) (g : AES_GCM) : AES_GCM :=
  if g.nonce.length = 12 then
    let c := ((((copyInto g.counter g.nonce).set 12 0).set 13 0).set 14 0).set 15 1
    increment_counter aesE { g with counter := c, key_stream0 := aesE c }
  else
    let gh : GHASH := ⟨[], g.nonce⟩
    let c := copyInto g.counter (gdig gh.aad gh.body)
    increment_counter aesE { g with ghash := gh, counter := c, key_stream0 := aesE c }

/-- `AES_GCM::encrypt`: `reset_counter(); tag.clear();
ghash.set_authdata(authdata); state = ENCRYPT;`. -/
def encrypt (aesE : List Nat → List Nat)
    (gdig : List Nat → List Nat → List Nat) (g : AES_GCM) : AES_GCM :=
  let g1 := reset_counter aesE gdig g
  { g1 with tag := [], ghash := ⟨g1.authdata, []⟩, state := .ENCRYPT }

/-- `AES_GCM::decrypt`: runs `encrypt()` then overwrites `state = DECRYPT`. -/
def decrypt (aesE : List Nat → List Nat)
    (gdig : List Nat → List Nat → List Nat) (g : AES_GCM) : AES_GCM :=
  { encrypt aesE gdig g with state := .DECRYPT }

/-- `AES_GCM::authtag`: in ENCRYPT or DECRYPT state, set
`tag = ghash.digest()` XORed bytewise with `key_stream0` and move to FINAL;
in any other state return the stored `tag` unchanged, touching nothing. -/
def authtag (gdig : List Nat → List Nat → List Nat) (g : AES_GCM) :
    List Nat × AES_GCM :=
  if g.state = .ENCRYPT ∨ g.state = .DECRYPT then
    let d := gdig g.ghash.aad g.ghash.body
    let t := (List.range d.length).map
      (fun i => (d.getD i 0 % 256) ^^^ g.key_stream0.getD i 0)
    (t, { g with tag := t, state := .FINAL })
  else
    (g.tag, g)

end AES_GCM

/-- The comparison loop of `AES_GCM::good`, instrumented with a count of
loop iterations (second component).  Each step compares `tag[i]` with
`expected_c = i >= expected_tag.size() ? 0 : expected_tag[i]` and keeps
`ok` only when they are equal; every element of the tag is visited. -/
def cmp_loop (expected : List Nat) : List Nat → Nat → Bool → Bool × Nat
  | [], _, ok => (ok, 0)
  | t :: ts, i, ok =>
    let ec := if expected.length ≤ i then 0 else expected.getD i 0
    let ok1 := if t = ec then ok else false
    let r := cmp_loop expected ts (i + 1) ok1
    (r.1, r.2 + 1)

namespace AES_GCM

/-- `AES_GCM::good`: calls `authtag()` then runs the constant-time
comparison loop of the stored `tag` against `expected_tag`. -/
def good (gdig : List Nat → List Nat → List Nat) (g : AES_GCM) :
    Bool × AES_GCM :=
  let r := authtag gdig g
  ((cmp_loop r.2.expected_tag r.2.tag 0 true).1, r.2)

end AES_GCM

/-- The while-loop of `AES_GCM::update`: consumes input bytes one at a time,
XORing each (as `uint8_t`) with `key_stream[pos]`; when `pos` reaches the
block size 16, the counter is incremented and the keystream refreshed.
Returns (output bytes, final pos, final counter, final keystream). -/
def xorLoop (aesE : List Nat → List Nat) :
    List Nat → Nat → List Nat → List Nat →
    List Nat × Nat × List Nat × List Nat
  | [], p, c, k => ([], p, c, k)
  | b :: bs, p, c, k =>
    let d := (b % 256) ^^^ k.getD p 0
    let next :=
      if 16 ≤ p + 1 then
        xorLoop aesE bs 0 (incBytes c) (aesE (incBytes c))
      else
        xorLoop aesE bs (p + 1) c k
    (d :: next.1, next.2)

namespace AES_GCM

/-- `AES_GCM::update`: throws unless in ENCRYPT or DECRYPT state; an empty
range returns "" untouched; in DECRYPT state the input is folded into ghash
before the XOR loop, in ENCRYPT state the output is folded in afterwards. -/
def update (aesE : List Nat → List Nat) (g : AES_GCM) (src : List Nat) :
    Except String (List Nat × AES_GCM) :=
  if g.state ≠ .ENCRYPT ∧ g.state ≠ .DECRYPT then
    .error "update() decends encrypt() or decrypt()."
  else if src = [] then
    .ok ([], g)
  else
    let g0 := if g.state = .DECRYPT then
        { g with ghash := ⟨g.ghash.aad, g.ghash.body ++ src⟩ } else g
    let r := xorLoop aesE src g0.pos g0.counter g0.key_stream
    let g1 := { g0 with pos := r.2.1, counter := r.2.2.1, key_stream := r.2.2.2 }
    let g2 := if g.state = .ENCRYPT then
        { g1 with ghash := ⟨g1.ghash.aad, g1.ghash.body ++ r.1⟩ } else g1
    .ok (r.1, g2)

end AES_GCM

/-- Runs a sequence of `update` calls, concatenating the outputs. -/
def updateChunks (aesE : List Nat → List Nat) (g : AES_GCM) :
    List (List Nat) → Except String (List Nat × AES_GCM)
  | [] => .ok ([], g)
  | cs :: rest =>
    match AES_GCM.update aesE g cs with
    | .error e => .error e
    | .ok (o, g1) =>
      match updateChunks aesE g1 rest with
      | .error e => .error e
      | .ok (o2, g2) => .ok (o ++ o2, g2)

/-- A session configured for a message: cleared, then AAD and nonce set. -/
def session (g : AES_GCM) (a n : List Nat) : AES_GCM :=
  (g.clear.add_authdata a).set_nonce n

/-- J0 as the spec describes it: for a 12-byte nonce, the nonce followed by
the four bytes 0,0,0,1; otherwise the GHASH digest of the nonce with empty
associated data and no prior ciphertext. -/
def J0_spec (gdig : List Nat → List Nat → List Nat) (n : List Nat) :
    List Nat :=
  if n.length = 12 then n ++ [0, 0, 0, 1] else gdig [] n

/-- J0 as the code computes it into the `uint8_t` counter array (byte
conversions made explicit). -/
def J0m (gdig : List Nat → List Nat → List Nat) (n : List Nat) : List Nat :=
  if n.length = 12 then n.map (· % 256) ++ [0, 0, 0, 1]
  else (gdig [] n).map (· % 256)

/-- Big-endian value of a byte string. -/
def toNatBE (l : List Nat) : Nat :=
  l.foldl (fun a b => 256 * a + b) 0

/-- Little-endian value of a byte string. -/
def toNatLE (l : List Nat) : Nat :=
  l.foldr (fun b acc => b + 256 * acc) 0

/-- Witness block: 16 distinct byte values. -/
def wBlock : List Nat := (List.range 16).map (fun i => i)

/-- Witness block cipher: a constant 16-byte block function. -/
def wAE : List Nat → List Nat := fun _ => wBlock

/-- Witness GHASH digest: a constant 16-byte digest. -/
def wGD : List Nat → List Nat → List Nat := fun _ _ => wBlock

/-- Witness ground session (INIT, 16-byte counter, cursor at 0). -/
def wG : AES_GCM :=
  ⟨[], [], [], [], .INIT, 0, List.replicate 16 0, [], [], ⟨[], []⟩⟩

/-- Witness finalized session. -/
def wGF : AES_GCM := { wG with state := .FINAL }

/-- Witness finalized session holding a full 16-byte tag equal to the
expected tag. -/
def wG4 : AES_GCM := { wG with state := .FINAL, tag := wBlock, expected_tag := wBlock }

/-- A session with a non-empty computed tag, used to exhibit what `clear`
leaves behind. -/
def gEx : AES_GCM :=
  ⟨[1], [2], [3], [9], .FINAL, 5, List.replicate 16 0,
   List.replicate 16 0, List.replicate 16 0, ⟨[4], [5]⟩⟩

/-! ### Basic helper lemmas -/

theorem toNatLE_nil : toNatLE [] = 0 := rfl

theorem toNatLE_cons (b : Nat) (l : List Nat) :
    toNatLE (b :: l) = b + 256 * toNatLE l := rfl

theorem toNatBE_eq_reverse (l : List Nat) : toNatBE l = toNatLE l.reverse := by
  have h : toNatLE l.reverse = List.foldl (fun x y => y + 256 * x) 0 l := by
    rw [toNatLE, List.foldr_reverse]
  rw [h, toNatBE]
  have hf : (fun (a b : Nat) => 256 * a + b) = (fun (x y : Nat) => y + 256 * x) := by
    funext x y
    omega
  rw [hf]

theorem byte_mod_pow_succ (b T n : Nat) (hb : b < 256) :
    (b + 256 * T) % 256 ^ (n + 1) = b + 256 * (T % 256 ^ n) := by
  have hpow : (0 : Nat) < 256 ^ n := Nat.pos_pow_of_pos n (by norm_num)
  conv_lhs => rw [← Nat.div_add_mod T (256 ^ n)]
  have h1 : b + 256 * (256 ^ n * (T / 256 ^ n) + T % 256 ^ n)
      = (b + 256 * (T % 256 ^ n)) + 256 ^ (n + 1) * (T / 256 ^ n) := by ring
  rw [h1, Nat.add_mul_mod_self_left]
  apply Nat.mod_eq_of_lt
  have h2 : T % 256 ^ n < 256 ^ n := Nat.mod_lt _ hpow
  have h3 : 256 + 256 * (T % 256 ^ n) = 256 * (T % 256 ^ n + 1) := by ring
  have h4 : 256 * (T % 256 ^ n + 1) ≤ 256 * 256 ^ n :=
    Nat.mul_le_mul_left _ (by omega)
  have h5 : 256 * 256 ^ n = 256 ^ (n + 1) := by rw [pow_succ]; ring
  omega

theorem incBytesLE_toNatLE :
    ∀ (bs : List Nat) (carry : Nat), carry ≤ 1 → (∀ x ∈ bs, x < 256) →
      toNatLE (incBytesLE bs carry) = (toNatLE bs + carry) % 256 ^ bs.length := by
  intro bs
  induction bs with
  | nil =>
    intro carry hc _
    simp only [incBytesLE, toNatLE_nil, List.length_nil, pow_zero]
    omega
  | cons b bs ih =>
    intro carry hc hmem
    have hb : b < 256 := hmem b (by simp)
    have hbs : ∀ x ∈ bs, x < 256 := fun x hx => hmem x (by simp [hx])
    rcases Nat.le_one_iff_eq_zero_or_eq_one.mp hc with rfl | rfl
    · have hb0 : (b + 0) % 256 = b := by omega
      simp only [incBytesLE, toNatLE_cons, List.length_cons, hb0]
      have hcar : (if b < 0 then 1 else 0) = 0 := by simp
      rw [hcar, ih 0 (by omega) hbs]
      simp only [Nat.add_zero]
      rw [byte_mod_pow_succ b (toNatLE bs) bs.length hb]
    · by_cases h255 : b = 255
      · subst h255
        have hb1 : (255 + 1) % 256 = 0 := by norm_num
        simp only [incBytesLE, toNatLE_cons, List.length_cons, hb1]
        have hcar : (if (0 : Nat) < 1 then 1 else 0) = 1 := by norm_num
        rw [hcar, ih 1 (by omega) hbs]
        have h6 : (255 + 256 * toNatLE bs + 1) = 256 * (toNatLE bs + 1) := by ring
        rw [h6]
        have h7 : (256 : Nat) ^ (bs.length + 1) = 256 * 256 ^ bs.length := by
          rw [pow_succ]; ring
        rw [h7, Nat.mul_mod_mul_left]
        omega
      · have hlt : b + 1 < 256 := by omega
        have hb1 : (b + 1) % 256 = b + 1 := by omega
        simp only [incBytesLE, toNatLE_cons, List.length_cons, hb1]
        have hcar : (if b + 1 < 1 then 1 else 0) = 0 := by
          have : ¬ (b + 1 < 1) := by omega
          simp [this]
        rw [hcar, ih 0 (by omega) hbs]
        simp only [Nat.add_zero]
        have h8 : b + 256 * toNatLE bs + 1 = (b + 1) + 256 * toNatLE bs := by ring
        rw [h8, byte_mod_pow_succ (b + 1) (toNatLE bs) bs.length hlt]

/-- C7: applying the counter increment routine to the all-ones 16-byte
counter yields the all-zero counter, and in general the routine adds
exactly one to the big-endian counter value modulo 2^128 (the carry
propagating from the last byte toward the first). -/
theorem c7_counter_increment :
    incBytes (List.replicate 16 255) = List.replicate 16 0 ∧
    ∀ c : List Nat, c.length = 16 → (∀ x ∈ c, x < 256) →
      toNatBE (incBytes c) = (toNatBE c + 1) % 2 ^ 128 := by
  constructor
  · decide
  · intro c hlen hmem
    rw [toNatBE_eq_reverse, incBytes, List.reverse_reverse,
      incBytesLE_toNatLE c.reverse 1 (le_refl 1)
        (fun x hx => hmem x (List.mem_reverse.mp hx)),
      List.length_reverse, hlen, ← toNatBE_eq_reverse]
    norm_num

/-- Witness for C7 at a concrete counter value. -/
theorem c7_counter_increment_witness :
    (List.replicate 16 (0 : Nat)).length = 16 ∧
    (∀ x ∈ List.replicate 16 (0 : Nat), x < 256) ∧
    toNatBE (incBytes (List.replicate 16 0)) =
      (toNatBE (List.replicate 16 0) + 1) % 2 ^ 128 :=
  ⟨by decide, by decide, c7_counter_increment.2 _ (by decide) (by decide)⟩

/-- C9: the comparison loop of `good` performs exactly one comparison step
per tag byte, whatever the tag bytes, the expected-tag bytes, the start
index and the incoming flag are: there is no early exit, so the step count
is independent of the position of the first mismatch. -/
theorem c9_cmp_loop_constant_time (expected ts : List Nat) (i : Nat) (ok : Bool) :
    (cmp_loop expected ts i ok).2 = ts.length := by
  induction ts generalizing i ok with
  | nil => rfl
  | cons t ts ih => simp [cmp_loop, ih]

/-- C6: in any state other than ENCRYPT and DECRYPT — INIT and FINAL
included — `update` raises the InvalidState error and emits no output. -/
theorem c6_update_invalid_state (aesE : List Nat → List Nat) (g : AES_GCM)
    (xs : List Nat) (h1 : g.state ≠ .ENCRYPT) (h2 : g.state ≠ .DECRYPT) :
    AES_GCM.update aesE g xs =
      .error "update() decends encrypt() or decrypt()." := by
  simp [AES_GCM.update, h1, h2]

/-- Witness for C6 on a FINAL-state session. -/
theorem c6_update_invalid_state_witness :
    wGF.state ≠ GCMState.ENCRYPT ∧ wGF.state ≠ GCMState.DECRYPT ∧
    AES_GCM.update wAE wGF [7] =
      .error "update() decends encrypt() or decrypt()." :=
  ⟨by decide, by decide,
   c6_update_invalid_state wAE wGF [7] (by decide) (by decide)⟩

/-- C8 counterexample: `clear` does not discard the computed tag — on a
session whose tag is `[9]`, the cleared session is in INIT but still holds
tag `[9]`, not the empty tag of a fresh session. -/
theorem c8_clear_counterexample :
    (AES_GCM.clear gEx).state = GCMState.INIT ∧
    (AES_GCM.clear gEx).tag = [9] ∧ ([9] : List Nat) ≠ [] :=
  ⟨rfl, rfl, by decide⟩

/-- C8 (amended): `clear` returns the session to INIT, discarding the
nonce, the associated data, the expected tag and the byte-position cursor;
the computed tag field is retained unchanged. -/
theorem c8_clear_amended (g : AES_GCM) :
    (AES_GCM.clear g).authdata = [] ∧ (AES_GCM.clear g).nonce = [] ∧
    (AES_GCM.clear g).expected_tag = [] ∧
    (AES_GCM.clear g).state = GCMState.INIT ∧ (AES_GCM.clear g).pos = 0 ∧
    (AES_GCM.clear g).tag = g.tag :=
  ⟨rfl, rfl, rfl, rfl, rfl, rfl⟩

/-- C10: on a session in INIT state `authtag` modifies nothing and returns
the stored tag; `clear` keeps the tag field, so after `clear` the returned
tag is still the previous message's tag. -/
theorem c10_authtag_init (gdig : List Nat → List Nat → List Nat)
    (g : AES_GCM) (h : g.state = GCMState.INIT) :
    AES_GCM.authtag gdig g = (g.tag, g) ∧
    (AES_GCM.clear g).tag = g.tag ∧
    AES_GCM.authtag gdig (AES_GCM.clear g) = (g.tag, AES_GCM.clear g) := by
  refine ⟨?_, rfl, ?_⟩
  · simp [AES_GCM.authtag, h]
  · simp [AES_GCM.authtag, AES_GCM.clear]

/-- Witness for C10 on the finalized-then-cleared example session. -/
theorem c10_authtag_init_witness :
    wG.state = GCMState.INIT ∧
    AES_GCM.authtag wGD wG = (wG.tag, wG) ∧
    (AES_GCM.clear wG).tag = wG.tag ∧
    AES_GCM.authtag wGD (AES_GCM.clear wG) = (wG.tag, AES_GCM.clear wG) :=
  ⟨rfl, c10_authtag_init wGD wG rfl⟩

/-! ### Counter derivation (J0) -/

theorem length_eq_four {α : Type _} {l : List α} (h : l.length = 4) :
    ∃ a b c d, l = [a, b, c, d] := by
  rcases l with _ | ⟨a, _ | ⟨b, _ | ⟨c, _ | ⟨d, _ | ⟨e, t⟩⟩⟩⟩⟩ <;>
    simp only [List.length_nil, List.length_cons] at h
  · omega
  · omega
  · omega
  · omega
  · exact ⟨a, b, c, d, rfl⟩
  · omega

theorem copyInto_of_lengths (dst src : List Nat) (h1 : dst.length = 16)
    (h2 : src.length = 16) : copyInto dst src = src.map (· % 256) := by
  rw [copyInto, h1, List.take_of_length_le (by simp [h2]), h2,
    List.drop_eq_nil_of_le (by omega), List.append_nil]

theorem counter12_eq (dst n : List Nat) (hd : dst.length = 16)
    (hn : n.length = 12) :
    ((((copyInto dst n).set 12 0).set 13 0).set 14 0).set 15 1 =
      n.map (· % 256) ++ [0, 0, 0, 1] := by
  have hmap : (n.map (· % 256)).length = 12 := by simp [hn]
  have hcp : copyInto dst n = n.map (· % 256) ++ dst.drop 12 := by
    rw [copyInto, hd, List.take_of_length_le (by omega), hn]
  have hdrop : (dst.drop 12).length = 4 := by simp [hd]
  obtain ⟨a, b, c, d, habcd⟩ := length_eq_four hdrop
  rw [hcp, habcd]
  simp [List.set_append, hmap]

theorem map_mod_eq_self (l : List Nat) (h : ∀ x ∈ l, x < 256) :
    l.map (· % 256) = l := by
  conv_rhs => rw [← List.map_id l]
  exact List.map_congr_left fun x hx => Nat.mod_eq_of_lt (h x hx)

theorem J0m_eq_spec (gdig : List Nat → List Nat → List Nat) (n : List Nat)
    (hn : ∀ x ∈ n, x < 256) (hGb : ∀ u v, ∀ x ∈ gdig u v, x < 256) :
    J0m gdig n = J0_spec gdig n := by
  rw [J0m, J0_spec]
  by_cases h12 : n.length = 12
  · rw [if_pos h12, if_pos h12, map_mod_eq_self n hn]
  · rw [if_neg h12, if_neg h12, map_mod_eq_self _ (hGb [] n)]

theorem reset_counter_eq12 (aesE : List Nat → List Nat)
    (gdig : List Nat → List Nat → List Nat) (g : AES_GCM)
    (hc : g.counter.length = 16) (h12 : g.nonce.length = 12) :
    AES_GCM.reset_counter aesE gdig g =
      { g with
        counter := incBytes (J0m gdig g.nonce),
        key_stream0 := aesE (J0m gdig g.nonce),
        key_stream := aesE (incBytes (J0m gdig g.nonce)) } := by
  rw [AES_GCM.reset_counter, if_pos h12]
  simp only [AES_GCM.increment_counter, counter12_eq g.counter g.nonce hc h12,
    J0m, if_pos h12]

theorem reset_counter_eq_non12 (aesE : List Nat → List Nat)
    (gdig : List Nat → List Nat → List Nat) (g : AES_GCM)
    (hc : g.counter.length = 16) (hG : ∀ u v, (gdig u v).length = 16)
    (h12 : ¬ g.nonce.length = 12) :
    AES_GCM.reset_counter aesE gdig g =
      { g with
        ghash := ⟨[], g.nonce⟩,
        counter := incBytes (J0m gdig g.nonce),
        key_stream0 := aesE (J0m gdig g.nonce),
        key_stream := aesE (incBytes (J0m gdig g.nonce)) } := by
  rw [AES_GCM.reset_counter, if_neg h12]
  simp only [AES_GCM.increment_counter,
    copyInto_of_lengths g.counter (gdig [] g.nonce) hc (hG [] g.nonce),
    J0m, if_neg h12]

theorem encrypt_eq (aesE : List Nat → List Nat)
    (gdig : List Nat → List Nat → List Nat) (g : AES_GCM)
    (hc : g.counter.length = 16) (hG : ∀ u v, (gdig u v).length = 16) :
    AES_GCM.encrypt aesE gdig g =
      { g with
        tag := [],
        state := GCMState.ENCRYPT,
        ghash := ⟨g.authdata, []⟩,
        counter := incBytes (J0m gdig g.nonce),
        key_stream0 := aesE (J0m gdig g.nonce),
        key_stream := aesE (incBytes (J0m gdig g.nonce)) } := by
  rw [AES_GCM.encrypt]
  by_cases h12 : g.nonce.length = 12
  · rw [reset_counter_eq12 aesE gdig g hc h12]
  · rw [reset_counter_eq_non12 aesE gdig g hc hG h12]

theorem decrypt_eq (aesE : List Nat → List Nat)
    (gdig : List Nat → List Nat → List Nat) (g : AES_GCM)
    (hc : g.counter.length = 16) (hG : ∀ u v, (gdig u v).length = 16) :
    AES_GCM.decrypt aesE gdig g =
      { g with
        tag := [],
        state := GCMState.DECRYPT,
        ghash := ⟨g.authdata, []⟩,
        counter := incBytes (J0m gdig g.nonce),
        key_stream0 := aesE (J0m gdig g.nonce),
        key_stream := aesE (incBytes (J0m gdig g.nonce)) } := by
  rw [AES_GCM.decrypt, encrypt_eq aesE gdig g hc hG]

/-- C2: at every `encrypt()`/`decrypt()` entry, the initial counter block
J0 — observable as the block whose encryption becomes the reserved mask
`key_stream0`, with the running counter continuing from J0 + 1 — is the
nonce followed by bytes 0,0,0,1 when the nonce is 12 bytes long, and the
GHASH digest of the nonce with empty associated data and no prior
ciphertext otherwise. -/
theorem c2_J0_derivation (aesE : List Nat → List Nat)
    (gdig : List Nat → List Nat → List Nat) (g : AES_GCM)
    (hc : g.counter.length = 16)
    (hG : ∀ u v, (gdig u v).length = 16 ∧ ∀ x ∈ gdig u v, x < 256)
    (hn : ∀ x ∈ g.nonce, x < 256) :
    ((AES_GCM.encrypt aesE gdig g).key_stream0 = aesE (J0_spec gdig g.nonce) ∧
     (AES_GCM.encrypt aesE gdig g).counter = incBytes (J0_spec gdig g.nonce)) ∧
    ((AES_GCM.decrypt aesE gdig g).key_stream0 = aesE (J0_spec gdig g.nonce) ∧
     (AES_GCM.decrypt aesE gdig g).counter = incBytes (J0_spec gdig g.nonce)) := by
  have hG1 : ∀ u v, (gdig u v).length = 16 := fun u v => (hG u v).1
  have hspec : J0m gdig g.nonce = J0_spec gdig g.nonce :=
    J0m_eq_spec gdig g.nonce hn (fun u v => (hG u v).2)
  rw [encrypt_eq aesE gdig g hc hG1, decrypt_eq aesE gdig g hc hG1, hspec]
  exact ⟨⟨rfl, rfl⟩, ⟨rfl, rfl⟩⟩

theorem wGD_prop : ∀ u v, (wGD u v).length = 16 ∧ ∀ x ∈ wGD u v, x < 256 := by
  intro u v
  have h : wGD u v = wBlock := rfl
  rw [h]
  exact ⟨by decide, by decide⟩

/-- Witness for C2 on a concrete session with a 1-byte nonce. -/
theorem c2_J0_derivation_witness :
    ({ wG with nonce := [5] } : AES_GCM).counter.length = 16 ∧
    (∀ u v, (wGD u v).length = 16 ∧ ∀ x ∈ wGD u v, x < 256) ∧
    (∀ x ∈ ({ wG with nonce := [5] } : AES_GCM).nonce, x < 256) ∧
    (((AES_GCM.encrypt wAE wGD { wG with nonce := [5] }).key_stream0 =
        wAE (J0_spec wGD [5]) ∧
      (AES_GCM.encrypt wAE wGD { wG with nonce := [5] }).counter =
        incBytes (J0_spec wGD [5])) ∧
     ((AES_GCM.decrypt wAE wGD { wG with nonce := [5] }).key_stream0 =
        wAE (J0_spec wGD [5]) ∧
      (AES_GCM.decrypt wAE wGD { wG with nonce := [5] }).counter =
        incBytes (J0_spec wGD [5]))) :=
  ⟨by decide, wGD_prop, by decide,
   c2_J0_derivation wAE wGD { wG with nonce := [5] } (by decide)
     wGD_prop (by decide)⟩

/-! ### Tag comparison (good) -/

theorem cmp_loop_false (e : List Nat) :
    ∀ (ts : List Nat) (i : Nat), (cmp_loop e ts i false).1 = false := by
  intro ts
  induction ts with
  | nil => intro i; rfl
  | cons t ts ih => intro i; simp [cmp_loop, ih]

theorem cmp_loop_true_iff (e : List Nat) :
    ∀ (ts : List Nat) (i : Nat),
      ((cmp_loop e ts i true).1 = true ↔
        ∀ j < ts.length, ts.getD j 0 =
          if i + j < e.length then e.getD (i + j) 0 else 0) := by
  intro ts
  induction ts with
  | nil => intro i; simp [cmp_loop]
  | cons t ts ih =>
    intro i
    have hec : (if e.length ≤ i then 0 else e.getD i 0) =
        (if i < e.length then e.getD i 0 else 0) := by
      split_ifs <;> first | rfl | omega
    by_cases ht : t = (if e.length ≤ i then 0 else e.getD i 0)
    · simp only [cmp_loop, if_pos ht]
      rw [ih (i + 1)]
      constructor
      · intro h j hj
        cases j with
        | zero =>
          simp only [List.getD_cons_zero, Nat.add_zero]
          rw [ht, hec]
        | succ j' =>
          have hj' : j' < ts.length := by
            simp only [List.length_cons] at hj
            omega
          have hgen := h j' hj'
          have harith : i + 1 + j' = i + (j' + 1) := by omega
          rw [harith] at hgen
          simpa using hgen
      · intro h j hj
        have hgen := h (j + 1)
          (by simp only [List.length_cons]; omega)
        have harith : i + (j + 1) = i + 1 + j := by omega
        rw [harith] at hgen
        simpa using hgen
    · have hr : (cmp_loop e (t :: ts) i true).1 = false := by
        simp only [cmp_loop, if_neg ht]
        exact cmp_loop_false e ts (i + 1)
      rw [hr]
      constructor
      · intro h
        exact (Bool.false_ne_true h).elim
      · intro h
        have h0 := h 0 (by simp)
        rw [List.getD_cons_zero] at h0
        refine absurd ?_ ht
        rw [hec]
        simpa using h0

/-- C4: on a finalized session holding a 16-byte tag, `good()` returns
`true` exactly when every tag byte 0..15 equals the corresponding
expected-tag byte, an out-of-range expected byte counting as zero (so a
short expected tag passes exactly when the tag's extra bytes are zero);
`good` is a total boolean function and raises nothing. -/
theorem c4_good_iff (gdig : List Nat → List Nat → List Nat) (g : AES_GCM)
    (hst : g.state = GCMState.FINAL) (hlen : g.tag.length = 16) :
    (AES_GCM.good gdig g).1 = true ↔
      ∀ i < 16, g.tag.getD i 0 =
        if i < g.expected_tag.length then g.expected_tag.getD i 0 else 0 := by
  have hne : ¬ (g.state = GCMState.ENCRYPT ∨ g.state = GCMState.DECRYPT) := by
    simp [hst]
  rw [AES_GCM.good, AES_GCM.authtag, if_neg hne]
  rw [cmp_loop_true_iff g.expected_tag g.tag 0]
  simp [hlen]

/-- Witness for C4 on a finalized session whose tag equals its expected
tag. -/
theorem c4_good_iff_witness :
    wG4.state = GCMState.FINAL ∧ wG4.tag.length = 16 ∧
    ((AES_GCM.good wGD wG4).1 = true ↔
      ∀ i < 16, wG4.tag.getD i 0 =
        if i < wG4.expected_tag.length then wG4.expected_tag.getD i 0 else 0) :=
  ⟨rfl, by decide, c4_good_iff wGD wG4 rfl (by decide)⟩

/-! ### The update loop -/

theorem xorLoop_append (aesE : List Nat → List Nat) (xs ys : List Nat) :
    ∀ (p : Nat) (c k : List Nat),
      xorLoop aesE (xs ++ ys) p c k =
        ((xorLoop aesE xs p c k).1 ++
           (xorLoop aesE ys (xorLoop aesE xs p c k).2.1
             (xorLoop aesE xs p c k).2.2.1 (xorLoop aesE xs p c k).2.2.2).1,
         (xorLoop aesE ys (xorLoop aesE xs p c k).2.1
           (xorLoop aesE xs p c k).2.2.1 (xorLoop aesE xs p c k).2.2.2).2) := by
  induction xs with
  | nil =>
    intro p c k
    simp [xorLoop]
  | cons b bs ih =>
    intro p c k
    simp only [List.cons_append, xorLoop]
    by_cases hp : 16 ≤ p + 1
    · simp only [if_pos hp, List.append_eq, ih, List.cons_append]
    · simp only [if_neg hp, List.append_eq, ih, List.cons_append]

theorem update_run_enc (aesE : List Nat → List Nat) (g : AES_GCM)
    (xs : List Nat) (h : g.state = GCMState.ENCRYPT) :
    AES_GCM.update aesE g xs =
      .ok ((xorLoop aesE xs g.pos g.counter g.key_stream).1,
        { g with
          pos := (xorLoop aesE xs g.pos g.counter g.key_stream).2.1,
          counter := (xorLoop aesE xs g.pos g.counter g.key_stream).2.2.1,
          key_stream := (xorLoop aesE xs g.pos g.counter g.key_stream).2.2.2,
          ghash := ⟨g.ghash.aad,
            g.ghash.body ++ (xorLoop aesE xs g.pos g.counter g.key_stream).1⟩ }) := by
  obtain ⟨ad, nn, et, tg, st, p, ct, k0, ks, ga, gb⟩ := g
  have h' : st = GCMState.ENCRYPT := h
  subst h'
  by_cases hxs : xs = []
  · subst hxs
    simp [AES_GCM.update, xorLoop]
  · simp [AES_GCM.update, hxs]

theorem update_run_dec (aesE : List Nat → List Nat) (g : AES_GCM)
    (xs : List Nat) (h : g.state = GCMState.DECRYPT) :
    AES_GCM.update aesE g xs =
      .ok ((xorLoop aesE xs g.pos g.counter g.key_stream).1,
        { g with
          pos := (xorLoop aesE xs g.pos g.counter g.key_stream).2.1,
          counter := (xorLoop aesE xs g.pos g.counter g.key_stream).2.2.1,
          key_stream := (xorLoop aesE xs g.pos g.counter g.key_stream).2.2.2,
          ghash := ⟨g.ghash.aad, g.ghash.body ++ xs⟩ }) := by
  obtain ⟨ad, nn, et, tg, st, p, ct, k0, ks, ga, gb⟩ := g
  have h' : st = GCMState.DECRYPT := h
  subst h'
  by_cases hxs : xs = []
  · subst hxs
    simp [AES_GCM.update, xorLoop]
  · simp [AES_GCM.update, hxs]

theorem update_nil (aesE : List Nat → List Nat) (g : AES_GCM)
    (h : g.state = GCMState.ENCRYPT ∨ g.state = GCMState.DECRYPT) :
    AES_GCM.update aesE g [] = .ok ([], g) := by
  rcases h with h | h <;> simp [AES_GCM.update, h]

theorem update_ok_state (aesE : List Nat → List Nat) (g : AES_GCM)
    (xs : List Nat)
    (h : g.state = GCMState.ENCRYPT ∨ g.state = GCMState.DECRYPT) :
    ∃ o g1, AES_GCM.update aesE g xs = .ok (o, g1) ∧ g1.state = g.state := by
  rcases h with h | h
  · rw [update_run_enc aesE g xs h]
    exact ⟨_, _, rfl, rfl⟩
  · rw [update_run_dec aesE g xs h]
    exact ⟨_, _, rfl, rfl⟩

theorem update_append (aesE : List Nat → List Nat) (g : AES_GCM)
    (xs ys o1 o2 : List Nat) (g1 g2 : AES_GCM)
    (h : g.state = GCMState.ENCRYPT ∨ g.state = GCMState.DECRYPT)
    (h1 : AES_GCM.update aesE g xs = .ok (o1, g1))
    (h2 : AES_GCM.update aesE g1 ys = .ok (o2, g2)) :
    AES_GCM.update aesE g (xs ++ ys) = .ok (o1 ++ o2, g2) := by
  rcases h with h | h
  · have e1 := update_run_enc aesE g xs h
    rw [e1, Except.ok.injEq, Prod.mk.injEq] at h1
    obtain ⟨ho1, hg1⟩ := h1
    have hst1 : g1.state = GCMState.ENCRYPT := by
      rw [← hg1]
      exact h
    have e2 := update_run_enc aesE g1 ys hst1
    rw [e2, Except.ok.injEq, Prod.mk.injEq] at h2
    obtain ⟨ho2, hg2⟩ := h2
    subst ho1
    subst ho2
    subst hg2
    subst hg1
    rw [update_run_enc aesE g (xs ++ ys) h, xorLoop_append]
    simp [List.append_assoc]
  · have e1 := update_run_dec aesE g xs h
    rw [e1, Except.ok.injEq, Prod.mk.injEq] at h1
    obtain ⟨ho1, hg1⟩ := h1
    have hst1 : g1.state = GCMState.DECRYPT := by
      rw [← hg1]
      exact h
    have e2 := update_run_dec aesE g1 ys hst1
    rw [e2, Except.ok.injEq, Prod.mk.injEq] at h2
    obtain ⟨ho2, hg2⟩ := h2
    subst ho1
    subst ho2
    subst hg2
    subst hg1
    rw [update_run_dec aesE g (xs ++ ys) h, xorLoop_append]
    simp [List.append_assoc]

theorem updateChunks_eq (aesE : List Nat → List Nat) :
    ∀ (css : List (List Nat)) (g : AES_GCM),
      (g.state = GCMState.ENCRYPT ∨ g.state = GCMState.DECRYPT) →
      updateChunks aesE g css = AES_GCM.update aesE g css.flatten := by
  intro css
  induction css with
  | nil =>
    intro g h
    rw [updateChunks, List.flatten_nil, update_nil aesE g h]
  | cons cs rest ih =>
    intro g h
    obtain ⟨o1, g1, h1, hst⟩ := update_ok_state aesE g cs h
    have h' : g1.state = GCMState.ENCRYPT ∨ g1.state = GCMState.DECRYPT := by
      rw [hst]
      exact h
    obtain ⟨o2, g2, h2, _⟩ := update_ok_state aesE g1 rest.flatten h'
    simp only [updateChunks, h1, ih g1 h', h2]
    rw [List.flatten_cons,
      update_append aesE g cs rest.flatten o1 o2 g1 g2 h h1 h2]

/-- C3: splitting a message into any sequence of chunks across multiple
`update` calls yields exactly the same output bytes and the same final
session state (hence the same accumulator and the same eventual tag) as a
single `update` over the concatenation, and an `update` over an empty
range is a no-op. -/
theorem c3_chunking_invariance (aesE : List Nat → List Nat) (g : AES_GCM)
    (h : g.state = GCMState.ENCRYPT ∨ g.state = GCMState.DECRYPT)
    (css : List (List Nat)) :
    updateChunks aesE g css = AES_GCM.update aesE g css.flatten ∧
    AES_GCM.update aesE g [] = .ok ([], g) :=
  ⟨updateChunks_eq aesE css g h, update_nil aesE g h⟩

/-- Witness session in ENCRYPT state. -/
def wGE : AES_GCM := { wG with state := .ENCRYPT, key_stream := wBlock }

/-- Witness for C3 on a concrete three-chunk split. -/
theorem c3_chunking_invariance_witness :
    (wGE.state = GCMState.ENCRYPT ∨ wGE.state = GCMState.DECRYPT) ∧
    (updateChunks wAE wGE [[1], [2, 3], [4, 5, 6]] =
      AES_GCM.update wAE wGE [[1], [2, 3], [4, 5, 6]].flatten ∧
     AES_GCM.update wAE wGE [] = .ok ([], wGE)) :=
  ⟨Or.inl rfl, c3_chunking_invariance wAE wGE (Or.inl rfl) [[1], [2, 3], [4, 5, 6]]⟩

/-! ### Round trip -/

theorem getD_lt_of_forall (k : List Nat) (p : Nat)
    (h : ∀ x ∈ k, x < 256) : k.getD p 0 < 256 := by
  by_cases hp : p < k.length
  · rw [List.getD_eq_getElem k 0 hp]
    exact h _ (List.getElem_mem hp)
  · rw [List.getD_eq_getElem?_getD, List.getElem?_eq_none (by omega)]
    norm_num

theorem xor_byte_lt (a b : Nat) (ha : a < 256) (hb : b < 256) :
    a ^^^ b < 256 := by
  have h256 : (256 : Nat) = 2 ^ 8 := by norm_num
  rw [h256] at ha hb ⊢
  exact Nat.xor_lt_two_pow ha hb

theorem xorLoop_roundtrip (aesE : List Nat → List Nat)
    (hEb : ∀ b, ∀ x ∈ aesE b, x < 256) :
    ∀ (P : List Nat) (p : Nat) (c k : List Nat), (∀ x ∈ k, x < 256) →
      xorLoop aesE (xorLoop aesE P p c k).1 p c k =
        (P.map (· % 256), (xorLoop aesE P p c k).2) := by
  intro P
  induction P with
  | nil =>
    intro p c k hk
    simp [xorLoop]
  | cons b bs ih =>
    intro p c k hk
    have hkp : k.getD p 0 < 256 := getD_lt_of_forall k p hk
    have hd : (b % 256 ^^^ k.getD p 0) < 256 :=
      xor_byte_lt _ _ (Nat.mod_lt _ (by norm_num)) hkp
    have hdm : (b % 256 ^^^ k.getD p 0) % 256 = b % 256 ^^^ k.getD p 0 :=
      Nat.mod_eq_of_lt hd
    by_cases hp : 16 ≤ p + 1
    · simp only [xorLoop, if_pos hp, hdm, Nat.xor_cancel_right, List.map_cons,
        ih 0 (incBytes c) (aesE (incBytes c)) (hEb _)]
    · simp only [xorLoop, if_neg hp, hdm, Nat.xor_cancel_right, List.map_cons,
        ih (p + 1) c k hk]

theorem cmp_loop_self (t : List Nat) : (cmp_loop t t 0 true).1 = true := by
  rw [cmp_loop_true_iff]
  intro j hj
  rw [if_pos (by simpa using hj)]
  simp

theorem roundtrip_core (aesE : List Nat → List Nat)
    (gdig : List Nat → List Nat → List Nat)
    (hEb : ∀ b, ∀ x ∈ aesE b, x < 256)
    (P C : List Nat) (hP : ∀ x ∈ P, x < 256)
    (ge gd ge2 : AES_GCM)
    (hgeS : ge.state = GCMState.ENCRYPT) (hgdS : gd.state = GCMState.DECRYPT)
    (h1 : AES_GCM.update aesE ge P = .ok (C, ge2))
    (hpos : gd.pos = ge.pos) (hctr : gd.counter = ge.counter)
    (hks : gd.key_stream = ge.key_stream)
    (hks0 : gd.key_stream0 = ge.key_stream0)
    (hgh : gd.ghash = ge.ghash) (hbody : ge.ghash.body = [])
    (hkb : ∀ x ∈ ge.key_stream, x < 256)
    (hexp : gd.expected_tag = (AES_GCM.authtag gdig ge2).1) :
    ∃ gd2, AES_GCM.update aesE gd C = .ok (P, gd2) ∧
      (AES_GCM.good gdig gd2).1 = true := by
  rw [update_run_enc aesE ge P hgeS, Except.ok.injEq, Prod.mk.injEq] at h1
  obtain ⟨hC, hge2⟩ := h1
  subst hC
  subst hge2
  have h2 : AES_GCM.update aesE gd
      (xorLoop aesE P ge.pos ge.counter ge.key_stream).1 =
      .ok (P, { gd with
        pos := (xorLoop aesE P ge.pos ge.counter ge.key_stream).2.1,
        counter := (xorLoop aesE P ge.pos ge.counter ge.key_stream).2.2.1,
        key_stream := (xorLoop aesE P ge.pos ge.counter ge.key_stream).2.2.2,
        ghash := ⟨gd.ghash.aad,
          gd.ghash.body ++ (xorLoop aesE P ge.pos ge.counter ge.key_stream).1⟩ }) := by
    rw [update_run_dec aesE gd _ hgdS, hpos, hctr, hks,
      xorLoop_roundtrip aesE hEb P ge.pos ge.counter ge.key_stream hkb,
      map_mod_eq_self P hP]
  refine ⟨_, h2, ?_⟩
  simp [AES_GCM.good, AES_GCM.authtag, hgdS, hgeS, hgh, hbody, hks0, hexp]
  exact cmp_loop_self _

/-- C1: an encrypt session (encrypt; update P; authtag) followed by a
decrypt session over the produced ciphertext with the produced tag set as
the expected tag (decrypt; update C; good) recovers exactly P and good()
returns true — for every key (the block cipher, hence every supported key
size, is abstract), every nonce of any length (both J0 paths), every AAD
and every plaintext byte string. -/
theorem c1_roundtrip (aesE : List Nat → List Nat)
    (gdig : List Nat → List Nat → List Nat)
    (hE : ∀ b, (aesE b).length = 16 ∧ ∀ x ∈ aesE b, x < 256)
    (hG : ∀ u v, (gdig u v).length = 16)
    (g g' : AES_GCM) (hc : g.counter.length = 16)
    (hc' : g'.counter.length = 16)
    (a n P : List Nat) (hP : ∀ x ∈ P, x < 256) :
    ∃ C ge2 gd2,
      AES_GCM.update aesE (AES_GCM.encrypt aesE gdig (session g a n)) P =
        .ok (C, ge2) ∧
      AES_GCM.update aesE
        (AES_GCM.decrypt aesE gdig
          ((session g' a n).set_authtag (AES_GCM.authtag gdig ge2).1)) C =
        .ok (P, gd2) ∧
      (AES_GCM.good gdig gd2).1 = true := by
  have hEb : ∀ b, ∀ x ∈ aesE b, x < 256 := fun b => (hE b).2
  have he := encrypt_eq aesE gdig (session g a n) hc hG
  have h1x := update_run_enc aesE (AES_GCM.encrypt aesE gdig (session g a n))
    P rfl
  obtain ⟨C, ge2, hC⟩ :
      ∃ C ge2, AES_GCM.update aesE
        (AES_GCM.encrypt aesE gdig (session g a n)) P = .ok (C, ge2) :=
    ⟨_, _, h1x⟩
  have hdx := decrypt_eq aesE gdig
    ((session g' a n).set_authtag (AES_GCM.authtag gdig ge2).1) hc' hG
  obtain ⟨gd2, hu2, hgood⟩ := roundtrip_core aesE gdig hEb P C hP
    (AES_GCM.encrypt aesE gdig (session g a n))
    (AES_GCM.decrypt aesE gdig
      ((session g' a n).set_authtag (AES_GCM.authtag gdig ge2).1))
    ge2 rfl rfl hC
    (by rw [hdx, he]; try rfl) (by rw [hdx, he]; try rfl)
    (by rw [hdx, he]; try rfl) (by rw [hdx, he]; try rfl)
    (by rw [hdx, he]; try rfl) (by rw [he]; try rfl)
    (by rw [he]; exact hEb _) (by rw [hdx]; try rfl)
  exact ⟨C, ge2, gd2, hC, hu2, hgood⟩

theorem wAE_prop : ∀ b, (wAE b).length = 16 ∧ ∀ x ∈ wAE b, x < 256 := by
  intro b
  have h : wAE b = wBlock := rfl
  rw [h]
  exact ⟨by decide, by decide⟩

/-- Witness for C1 with a concrete key function, 1-byte nonce, 2-byte AAD
and 3-byte plaintext. -/
theorem c1_roundtrip_witness :
    (∀ b, (wAE b).length = 16 ∧ ∀ x ∈ wAE b, x < 256) ∧
    (∀ u v, (wGD u v).length = 16) ∧
    wG.counter.length = 16 ∧
    (∀ x ∈ [10, 200, 7], x < 256) ∧
    (∃ C ge2 gd2,
      AES_GCM.update wAE
        (AES_GCM.encrypt wAE wGD (session wG [1, 2] [3])) [10, 200, 7] =
        .ok (C, ge2) ∧
      AES_GCM.update wAE
        (AES_GCM.decrypt wAE wGD
          ((session wG [1, 2] [3]).set_authtag (AES_GCM.authtag wGD ge2).1)) C =
        .ok ([10, 200, 7], gd2) ∧
      (AES_GCM.good wGD gd2).1 = true) :=
  ⟨wAE_prop, fun u v => (wGD_prop u v).1, by decide, by decide,
   c1_roundtrip wAE wGD wAE_prop (fun u v => (wGD_prop u v).1) wG wG
     (by decide) (by decide) [1, 2] [3] [10, 200, 7] (by decide)⟩

/-! ### The reserved mask block and the data counters -/

theorem xorLoop_counter_iter (aesE : List Nat → List Nat) :
    ∀ (bs : List Nat) (p : Nat) (c k : List Nat), k = aesE c →
      ∃ w, (xorLoop aesE bs p c k).2.2.1 = incBytes^[w] c ∧
        (xorLoop aesE bs p c k).2.2.2 = aesE ((xorLoop aesE bs p c k).2.2.1) := by
  intro bs
  induction bs with
  | nil =>
    intro p c k hk
    exact ⟨0, rfl, hk⟩
  | cons b bs ih =>
    intro p c k hk
    by_cases hp : 16 ≤ p + 1
    · obtain ⟨w, h1, h2⟩ := ih 0 (incBytes c) (aesE (incBytes c)) rfl
      refine ⟨w + 1, ?_, ?_⟩
      · simp only [xorLoop, if_pos hp]
        rw [h1, ← Function.iterate_succ_apply]
      · simp only [xorLoop, if_pos hp]
        exact h2
    · obtain ⟨w, h1, h2⟩ := ih (p + 1) c k hk
      refine ⟨w, ?_, ?_⟩
      · simp only [xorLoop, if_neg hp]
        exact h1
      · simp only [xorLoop, if_neg hp]
        exact h2

theorem update_inv (aesE : List Nat → List Nat) (J : List Nat)
    (g g2 : AES_GCM) (o xs : List Nat)
    (hu : AES_GCM.update aesE g xs = .ok (o, g2))
    (hks0 : g.key_stream0 = aesE J)
    (hinv : ∃ m, g.counter = incBytes^[m + 1] J ∧
      g.key_stream = aesE g.counter) :
    g2.key_stream0 = aesE J ∧
      ∃ m, g2.counter = incBytes^[m + 1] J ∧
        g2.key_stream = aesE g2.counter := by
  obtain ⟨m, hc1, hk1⟩ := hinv
  by_cases hE1 : g.state = GCMState.ENCRYPT
  · rw [update_run_enc aesE g xs hE1, Except.ok.injEq, Prod.mk.injEq] at hu
    obtain ⟨-, hg2⟩ := hu
    subst hg2
    obtain ⟨w, hw1, hw2⟩ :=
      xorLoop_counter_iter aesE xs g.pos g.counter g.key_stream hk1
    refine ⟨hks0, w + m, ?_, hw2⟩
    rw [hw1, hc1, ← Function.iterate_add_apply]
    have harith : w + (m + 1) = w + m + 1 := by omega
    rw [harith]
  · by_cases hD1 : g.state = GCMState.DECRYPT
    · rw [update_run_dec aesE g xs hD1, Except.ok.injEq, Prod.mk.injEq] at hu
      obtain ⟨-, hg2⟩ := hu
      subst hg2
      obtain ⟨w, hw1, hw2⟩ :=
        xorLoop_counter_iter aesE xs g.pos g.counter g.key_stream hk1
      refine ⟨hks0, w + m, ?_, hw2⟩
      rw [hw1, hc1, ← Function.iterate_add_apply]
      have harith : w + (m + 1) = w + m + 1 := by omega
      rw [harith]
    · simp [AES_GCM.update, hE1, hD1] at hu

theorem updateChunks_inv (aesE : List Nat → List Nat) (J : List Nat) :
    ∀ (css : List (List Nat)) (g g2 : AES_GCM) (o : List Nat),
      updateChunks aesE g css = .ok (o, g2) →
      g.key_stream0 = aesE J →
      (∃ m, g.counter = incBytes^[m + 1] J ∧
        g.key_stream = aesE g.counter) →
      g2.key_stream0 = aesE J ∧
        ∃ m, g2.counter = incBytes^[m + 1] J ∧
          g2.key_stream = aesE g2.counter := by
  intro css
  induction css with
  | nil =>
    intro g g2 o hu h0 hinv
    rw [updateChunks, Except.ok.injEq, Prod.mk.injEq] at hu
    obtain ⟨-, hg⟩ := hu
    subst hg
    exact ⟨h0, hinv⟩
  | cons cs rest ih =>
    intro g g2 o hu h0 hinv
    rw [updateChunks] at hu
    cases hcase : AES_GCM.update aesE g cs with
    | error e =>
      rw [hcase] at hu
      simp at hu
    | ok pr =>
      obtain ⟨o1, g1⟩ := pr
      rw [hcase] at hu
      dsimp only at hu
      cases hrest : updateChunks aesE g1 rest with
      | error e =>
        rw [hrest] at hu
        simp at hu
      | ok pr2 =>
        obtain ⟨o2, g2x⟩ := pr2
        rw [hrest] at hu
        simp only [Except.ok.injEq, Prod.mk.injEq] at hu
        obtain ⟨-, hg⟩ := hu
        subst hg
        have step := update_inv aesE J g g1 o1 cs hcase h0 hinv
        exact ih g1 g2x o2 hrest step.1 step.2

theorem xorLoop_getD_closed (aesE : List Nat → List Nat) (J : List Nat) :
    ∀ (P : List Nat) (p j : Nat) (c k : List Nat), p < 16 →
      c = incBytes^[j] J → k = aesE c →
      ∀ i < P.length,
        (xorLoop aesE P p c k).1.getD i 0 =
          P.getD i 0 % 256 ^^^
            (aesE (incBytes^[j + (p + i) / 16] J)).getD ((p + i) % 16) 0 := by
  intro P
  induction P with
  | nil =>
    intro p j c k hp hc hk i hi
    simp at hi
  | cons b bs ih =>
    intro p j c k hp hc hk i hi
    cases i with
    | zero =>
      have hdiv : (p + 0) / 16 = 0 := by omega
      have hmod : (p + 0) % 16 = p := by omega
      simp only [xorLoop, List.getD_cons_zero]
      rw [hdiv, hmod, Nat.add_zero, ← hc, ← hk]
    | succ i' =>
      have hi' : i' < bs.length := by
        simp only [List.length_cons] at hi
        omega
      simp only [xorLoop, List.getD_cons_succ]
      by_cases hpw : 16 ≤ p + 1
      · have hp15 : p = 15 := by omega
        subst hp15
        rw [if_pos hpw]
        have hstep := ih 0 (j + 1) (incBytes c) (aesE (incBytes c)) (by omega)
          (by rw [hc]; exact (Function.iterate_succ_apply' incBytes j J).symm)
          rfl i' hi'
        rw [hstep]
        have h1 : j + 1 + (0 + i') / 16 = j + (15 + (i' + 1)) / 16 := by omega
        have h2 : (0 + i') % 16 = (15 + (i' + 1)) % 16 := by omega
        rw [h1, h2]
      · rw [if_neg hpw]
        have hstep := ih (p + 1) j c k (by omega) hc hk i' hi'
        rw [hstep]
        have h1 : j + (p + 1 + i') / 16 = j + (p + (i' + 1)) / 16 := by omega
        have h2 : (p + 1 + i') % 16 = (p + (i' + 1)) % 16 := by omega
        rw [h1, h2]

/-- C5: starting a message (encrypt() or decrypt() entry) computes the
reserved mask block `key_stream0 = E(J0)` exactly once and moves the
running counter to J0+1; no sequence of `update` calls ever changes the
mask block, and after any updates the counter is J0+(m+1) with the
keystream the encryption of that counter; each output byte of `update` is
its input byte XORed with a byte of `E(J0+1+i/16)` — a counter of J0+1 or
later, never J0; and `authtag` masks the digest with `key_stream0 = E(J0)`
itself. -/
theorem c5_mask_block (aesE : List Nat → List Nat)
    (gdig : List Nat → List Nat → List Nat)
    (hG : ∀ u v, (gdig u v).length = 16)
    (g : AES_GCM) (hc : g.counter.length = 16) (hpos : g.pos = 0)
    (g1 : AES_GCM)
    (hg1 : g1 = AES_GCM.encrypt aesE gdig g ∨
      g1 = AES_GCM.decrypt aesE gdig g) :
    (g1.key_stream0 = aesE (J0m gdig g.nonce) ∧
     g1.counter = incBytes (J0m gdig g.nonce) ∧
     g1.key_stream = aesE g1.counter) ∧
    (∀ css out g2, updateChunks aesE g1 css = .ok (out, g2) →
       g2.key_stream0 = aesE (J0m gdig g.nonce) ∧
       ∃ m, g2.counter = incBytes^[m + 1] (J0m gdig g.nonce) ∧
         g2.key_stream = aesE g2.counter) ∧
    (∀ P C g2, AES_GCM.update aesE g1 P = .ok (C, g2) →
       ∀ i < P.length,
         C.getD i 0 = P.getD i 0 % 256 ^^^
           (aesE (incBytes^[1 + i / 16] (J0m gdig g.nonce))).getD (i % 16) 0) ∧
    (∀ g3, g3.key_stream0 = aesE (J0m gdig g.nonce) →
       (g3.state = GCMState.ENCRYPT ∨ g3.state = GCMState.DECRYPT) →
       (AES_GCM.authtag gdig g3).1 =
         (List.range (gdig g3.ghash.aad g3.ghash.body).length).map
           (fun i => (gdig g3.ghash.aad g3.ghash.body).getD i 0 % 256 ^^^
             (aesE (J0m gdig g.nonce)).getD i 0)) := by
  have hks0 : g1.key_stream0 = aesE (J0m gdig g.nonce) := by
    rcases hg1 with rfl | rfl
    · rw [encrypt_eq aesE gdig g hc hG]
    · rw [decrypt_eq aesE gdig g hc hG]
  have hctr : g1.counter = incBytes (J0m gdig g.nonce) := by
    rcases hg1 with rfl | rfl
    · rw [encrypt_eq aesE gdig g hc hG]
    · rw [decrypt_eq aesE gdig g hc hG]
  have hks : g1.key_stream = aesE (incBytes (J0m gdig g.nonce)) := by
    rcases hg1 with rfl | rfl
    · rw [encrypt_eq aesE gdig g hc hG]
    · rw [decrypt_eq aesE gdig g hc hG]
  have hp0 : g1.pos = 0 := by
    rcases hg1 with rfl | rfl
    · rw [encrypt_eq aesE gdig g hc hG]
      exact hpos
    · rw [decrypt_eq aesE gdig g hc hG]
      exact hpos
  have hstate : g1.state = GCMState.ENCRYPT ∨ g1.state = GCMState.DECRYPT := by
    rcases hg1 with rfl | rfl
    · left
      rw [encrypt_eq aesE gdig g hc hG]
    · right
      rw [decrypt_eq aesE gdig g hc hG]
  refine ⟨⟨hks0, hctr, by rw [hks, hctr]⟩, ?_, ?_, ?_⟩
  · intro css out g2 hu
    exact updateChunks_inv aesE (J0m gdig g.nonce) css g1 g2 out hu hks0
      ⟨0, by rw [hctr, Function.iterate_one], by rw [hks, hctr]⟩
  · intro P C g2 hu i hi
    have hclosed := xorLoop_getD_closed aesE (J0m gdig g.nonce) P 0 1
      (incBytes (J0m gdig g.nonce)) (aesE (incBytes (J0m gdig g.nonce)))
      (by omega) (by rw [Function.iterate_one]) rfl i hi
    rcases hstate with hst | hst
    · rw [update_run_enc aesE g1 P hst, Except.ok.injEq, Prod.mk.injEq] at hu
      obtain ⟨hCo, -⟩ := hu
      rw [← hCo, hp0, hctr, hks]
      simpa using hclosed
    · rw [update_run_dec aesE g1 P hst, Except.ok.injEq, Prod.mk.injEq] at hu
      obtain ⟨hCo, -⟩ := hu
      rw [← hCo, hp0, hctr, hks]
      simpa using hclosed
  · intro g3 h30 h3st
    simp only [AES_GCM.authtag, if_pos h3st, h30]

/-- Witness for C5 on a concrete encrypt session. -/
theorem c5_mask_block_witness :
    (∀ u v, (wGD u v).length = 16) ∧
    wG.counter.length = 16 ∧ wG.pos = 0 ∧
    (AES_GCM.encrypt wAE wGD wG = AES_GCM.encrypt wAE wGD wG ∨
      AES_GCM.encrypt wAE wGD wG = AES_GCM.decrypt wAE wGD wG) ∧
    (((AES_GCM.encrypt wAE wGD wG).key_stream0 = wAE (J0m wGD wG.nonce) ∧
      (AES_GCM.encrypt wAE wGD wG).counter = incBytes (J0m wGD wG.nonce) ∧
      (AES_GCM.encrypt wAE wGD wG).key_stream =
        wAE (AES_GCM.encrypt wAE wGD wG).counter) ∧
     (∀ css out g2,
        updateChunks wAE (AES_GCM.encrypt wAE wGD wG) css = .ok (out, g2) →
        g2.key_stream0 = wAE (J0m wGD wG.nonce) ∧
        ∃ m, g2.counter = incBytes^[m + 1] (J0m wGD wG.nonce) ∧
          g2.key_stream = wAE g2.counter) ∧
     (∀ P C g2,
        AES_GCM.update wAE (AES_GCM.encrypt wAE wGD wG) P = .ok (C, g2) →
        ∀ i < P.length,
          C.getD i 0 = P.getD i 0 % 256 ^^^
            (wAE (incBytes^[1 + i / 16] (J0m wGD wG.nonce))).getD (i % 16) 0) ∧
     (∀ g3, g3.key_stream0 = wAE (J0m wGD wG.nonce) →
        (g3.state = GCMState.ENCRYPT ∨ g3.state = GCMState.DECRYPT) →
        (AES_GCM.authtag wGD g3).1 =
          (List.range (wGD g3.ghash.aad g3.ghash.body).length).map
            (fun i => (wGD g3.ghash.aad g3.ghash.body).getD i 0 % 256 ^^^
              (wAE (J0m wGD wG.nonce)).getD i 0))) :=
  ⟨fun u v => (wGD_prop u v).1, by decide, rfl, Or.inl rfl,
   c5_mask_block wAE wGD (fun u v => (wGD_prop u v).1) wG (by decide) rfl
     (AES_GCM.encrypt wAE wGD wG) (Or.inl rfl)⟩

end GCM
